import Mathlib

/-!
Verification of the text patcher in src/fix_price_mapping.py.

The script reads the file at a hard-coded path, applies two
regular-expression substitutions in sequence, and writes the result back:

  rule 1 : re.sub of  (\s+return \x7b\s+\.\.\.session,)  with
           group 1 followed by a newline, eight spaces and the
           price_amount assignment line;
  rule 2 : re.sub of the literal  session: newSession  with the expanded
           object expression.

Texts are modelled as List Char.  Python's re.sub replaces the leftmost
non-overlapping matches, scanning left to right; for these two patterns an
occurrence never matches the empty string, so the scan either consumes a
match and continues after it, or copies one character and retries at the
next position.  The greedy \s+ pieces are modelled by maximal whitespace
runs: each \s+ in the pattern is immediately followed by a literal whose
first character is not whitespace, so the backtracking regex engine can
only succeed with the maximal run, making maximal-munch equivalent.
-/

set_option maxRecDepth 10000
set_option maxHeartbeats 2000000

namespace PricePatch

/-- Whitespace class of the regex escape used in the pattern.  The
source compiles its patterns from str without re.ASCII, so the class is
Python 3's Unicode one: U+0009-U+000D, U+001C-U+0020, next line U+0085,
no-break space U+00A0, and the Unicode space characters U+1680,
U+2000-U+200A, U+2028, U+2029, U+202F, U+205F, U+3000 (the set CPython's
sre engine accepts for the escape under full Unicode matching). -/
def isSpace (c : Char) : Bool :=
  let n := c.toNat
  (0x09 ≤ n && n ≤ 0x0D) || (0x1C ≤ n && n ≤ 0x20) ||
  n = 0x85 || n = 0xA0 || n = 0x1680 ||
  (0x2000 ≤ n && n ≤ 0x200A) || n = 0x2028 || n = 0x2029 ||
  n = 0x202F || n = 0x205F || n = 0x3000

/-- Literal part of rule 1's pattern between the two whitespace runs. -/
def lit1 : List Char := "return \x7b".toList

/-- Literal tail of rule 1's pattern. -/
def lit2 : List Char := "...session,".toList

/-- Text rule 1 inserts after the matched group (the raw replacement
minus the back-reference to group 1): newline, eight spaces, and the
assignment line with its trailing comment. -/
def ins1 : List Char :=
  "\n        price_amount: session.price_cents, // Map price_cents to price_amount for API consistency".toList

/-- Rule 2's pattern, a pure literal. -/
def pat2 : List Char := "session: newSession".toList

/-- Rule 2's replacement text. -/
def rep2 : List Char :=
  "session: \x7b ...newSession, price_amount: newSession.price_cents \x7d".toList

/-- If `lit` is a prefix of `s`, return the remainder of `s` after it. -/
def dropLit : List Char → List Char → Option (List Char)
  | [], s => some s
  | _ :: _, [] => none
  | a :: as, b :: bs => if a = b then dropLit as bs else none

/-- Try to match rule 1's regex at the start of `s`.  On success, return
the matched text (group 1 of the pattern) and the remainder of `s`. -/
def matchRule1 (s : List Char) : Option (List Char × List Char) :=
  if s.takeWhile isSpace = [] then none
  else
    match dropLit lit1 (s.dropWhile isSpace) with
    | none => none
    | some r2 =>
      if r2.takeWhile isSpace = [] then none
      else
        match dropLit lit2 (r2.dropWhile isSpace) with
        | none => none
        | some r4 =>
          some (s.takeWhile isSpace ++ lit1 ++ r2.takeWhile isSpace ++ lit2, r4)

/-- Rule 1's re.sub scan, with explicit fuel so that the recursion is
structural (fuel at least the length of the text is always enough). -/
def sub1Go : Nat → List Char → List Char
  | 0, s => s
  | _ + 1, [] => []
  | n + 1, c :: rest =>
    match matchRule1 (c :: rest) with
    | some (g, r) => g ++ ins1 ++ sub1Go n r
    | none => c :: sub1Go n rest

/-- First substitution of the script: re.sub of rule 1 over the text. -/
def sub1 (s : List Char) : List Char := sub1Go s.length s

/-- Rule 2's re.sub scan, with explicit fuel. -/
def sub2Go : Nat → List Char → List Char
  | 0, s => s
  | _ + 1, [] => []
  | n + 1, c :: rest =>
    match dropLit pat2 (c :: rest) with
    | some r => rep2 ++ sub2Go n r
    | none => c :: sub2Go n rest

/-- Second substitution of the script: re.sub of rule 2 over the text. -/
def sub2 (s : List Char) : List Char := sub2Go s.length s

/-- The whole transformation of the script: rule 1, then rule 2 on its
output. -/
def patch (s : List Char) : List Char := sub2 (sub1 s)

/-- Does rule 1's pattern match anywhere in the text? -/
def hasMatch1 : List Char → Bool
  | [] => false
  | c :: rest => (matchRule1 (c :: rest)).isSome || hasMatch1 rest

/-- Does rule 2's literal pattern occur anywhere in the text? -/
def hasMatch2 : List Char → Bool
  | [] => false
  | c :: rest => (dropLit pat2 (c :: rest)).isSome || hasMatch2 rest

/-! ### Basic lemmas about the matching primitives -/

theorem dropLit_some_append {lit s r : List Char} :
    dropLit lit s = some r → s = lit ++ r := by
  induction lit generalizing s with
  | nil => intro h; simpa [dropLit] using h
  | cons a as ih =>
    intro h
    cases s with
    | nil => simp [dropLit] at h
    | cons b bs =>
      by_cases hab : a = b
      · subst hab
        simp only [dropLit, if_pos rfl] at h
        simpa using ih h
      · simp [dropLit, hab] at h

theorem dropLit_some_length {lit s r : List Char} (h : dropLit lit s = some r) :
    s.length = lit.length + r.length := by
  have := dropLit_some_append h
  subst this
  simp

theorem dropLit_nil_none {lit : List Char} (h : lit ≠ []) :
    dropLit lit [] = none := by
  cases lit with
  | nil => exact absurd rfl h
  | cons a as => rfl

theorem matchRule1_consume {s g r : List Char}
    (h : matchRule1 s = some (g, r)) : s = g ++ r ∧ g ≠ [] := by
  unfold matchRule1 at h
  by_cases h1 : s.takeWhile isSpace = []
  · simp [h1] at h
  · rw [if_neg h1] at h
    cases hd1 : dropLit lit1 (s.dropWhile isSpace) with
    | none => rw [hd1] at h; simp at h
    | some r2 =>
      rw [hd1] at h
      dsimp only at h
      by_cases h2 : r2.takeWhile isSpace = []
      · simp [h2] at h
      · rw [if_neg h2] at h
        cases hd2 : dropLit lit2 (r2.dropWhile isSpace) with
        | none => rw [hd2] at h; simp at h
        | some r4 =>
          rw [hd2] at h
          dsimp only at h
          simp only [Option.some.injEq, Prod.mk.injEq] at h
          obtain ⟨hg, hr⟩ := h
          subst hr
          constructor
          · have e1 : s.takeWhile isSpace ++ s.dropWhile isSpace = s :=
              List.takeWhile_append_dropWhile isSpace s
            have e2 : s.dropWhile isSpace = lit1 ++ r2 := dropLit_some_append hd1
            have e3 : r2.takeWhile isSpace ++ r2.dropWhile isSpace = r2 :=
              List.takeWhile_append_dropWhile isSpace r2
            have e4 : r2.dropWhile isSpace = lit2 ++ r4 := dropLit_some_append hd2
            have hnest : s = s.takeWhile isSpace ++ (lit1 ++ (r2.takeWhile isSpace ++ (lit2 ++ r4))) := by
              rw [← e4, e3, ← e2, e1]
            rw [← hg]
            exact hnest.trans (by simp)
          · rw [← hg]
            intro hcon
            rw [List.append_eq_nil, List.append_eq_nil, List.append_eq_nil] at hcon
            exact h1 hcon.1.1.1

theorem matchRule1_length {s g r : List Char}
    (h : matchRule1 s = some (g, r)) : r.length < s.length := by
  obtain ⟨he, hg⟩ := matchRule1_consume h
  subst he
  have : 0 < g.length := List.length_pos.mpr hg
  simp [List.length_append]
  omega

/-! ### Fuel is irrelevant once it covers the length of the text -/

theorem sub1Go_congr : ∀ (n m : Nat) (s : List Char),
    s.length ≤ n → s.length ≤ m → sub1Go n s = sub1Go m s := by
  intro n
  induction n with
  | zero =>
    intro m s hn _
    have hs : s = [] := by
      cases s with
      | nil => rfl
      | cons c rest => simp at hn
    subst hs
    cases m <;> rfl
  | succ n ih =>
    intro m s hn hm
    cases s with
    | nil => cases m <;> rfl
    | cons c rest =>
      cases m with
      | zero => simp at hm
      | succ m =>
        simp only [sub1Go]
        cases hmr : matchRule1 (c :: rest) with
        | some pr =>
          obtain ⟨g, r⟩ := pr
          have hr : r.length < rest.length + 1 := matchRule1_length hmr
          simp only [List.length_cons] at hn hm
          dsimp only
          rw [ih m r (by omega) (by omega)]
        | none =>
          simp only [List.length_cons] at hn hm
          rw [ih m rest (by omega) (by omega)]

theorem sub2Go_congr : ∀ (n m : Nat) (s : List Char),
    s.length ≤ n → s.length ≤ m → sub2Go n s = sub2Go m s := by
  intro n
  induction n with
  | zero =>
    intro m s hn _
    have hs : s = [] := by
      cases s with
      | nil => rfl
      | cons c rest => simp at hn
    subst hs
    cases m <;> rfl
  | succ n ih =>
    intro m s hn hm
    cases s with
    | nil => cases m <;> rfl
    | cons c rest =>
      cases m with
      | zero => simp at hm
      | succ m =>
        simp only [sub2Go]
        cases hdl : dropLit pat2 (c :: rest) with
        | some r =>
          have hr : (c :: rest).length = pat2.length + r.length :=
            dropLit_some_length hdl
          have hp : 0 < pat2.length := by decide
          simp only [List.length_cons] at hn hm hr
          dsimp only
          rw [ih m r (by omega) (by omega)]
        | none =>
          simp only [List.length_cons] at hn hm
          rw [ih m rest (by omega) (by omega)]

/-! ### Equation lemmas for the two scans, independent of fuel -/

theorem sub1_nil : sub1 [] = [] := rfl

theorem sub1_cons_matched {c : Char} {rest g r : List Char}
    (h : matchRule1 (c :: rest) = some (g, r)) :
    sub1 (c :: rest) = g ++ ins1 ++ sub1 r := by
  have hr : r.length < rest.length + 1 := matchRule1_length h
  show sub1Go (rest.length + 1) (c :: rest) = _
  simp only [sub1Go, h]
  rw [sub1Go_congr rest.length r.length r (by omega) le_rfl]
  rfl

theorem sub1_cons_nomatch {c : Char} {rest : List Char}
    (h : matchRule1 (c :: rest) = none) :
    sub1 (c :: rest) = c :: sub1 rest := by
  show sub1Go (rest.length + 1) (c :: rest) = _
  simp only [sub1Go, h]
  rfl

theorem sub2_nil : sub2 [] = [] := rfl

theorem sub2_cons_matched {c : Char} {rest r : List Char}
    (h : dropLit pat2 (c :: rest) = some r) :
    sub2 (c :: rest) = rep2 ++ sub2 r := by
  have hlen : (c :: rest).length = pat2.length + r.length := dropLit_some_length h
  have hp : 0 < pat2.length := by decide
  simp only [List.length_cons] at hlen
  show sub2Go (rest.length + 1) (c :: rest) = _
  simp only [sub2Go, h]
  rw [sub2Go_congr rest.length r.length r (by omega) le_rfl]
  rfl

theorem sub2_cons_nomatch {c : Char} {rest : List Char}
    (h : dropLit pat2 (c :: rest) = none) :
    sub2 (c :: rest) = c :: sub2 rest := by
  show sub2Go (rest.length + 1) (c :: rest) = _
  simp only [sub2Go, h]
  rfl

/-! ### Spec-side reading of the two substitutions

The claims describe each substitution as: find each occurrence of the
shape, keep the matched text, and insert / substitute there, once per
occurrence.  The following definitions follow those words: a searcher
that splits the text at the leftmost occurrence, and a rewriter that
emits the prefix, handles the occurrence, and recurses on the remainder. -/

/-- Spec-side leftmost search for rule 1's shape: on success, return the
text before the occurrence, the occurrence itself, and the text after. -/
def findM : List Char → Option (List Char × List Char × List Char)
  | [] => none
  | c :: rest =>
    match matchRule1 (c :: rest) with
    | some (g, r) => some ([], g, r)
    | none =>
      match findM rest with
      | some (p, g, r) => some (c :: p, g, r)
      | none => none

/-- Spec-side rewriter for rule 1 (fuel-indexed): at each occurrence of
the shape, keep the matched text unchanged and insert the field
assignment immediately after it, exactly once, then continue after the
occurrence. -/
def rule1SpecGo : Nat → List Char → List Char
  | 0, s => s
  | n + 1, s =>
    match findM s with
    | none => s
    | some (p, g, r) => p ++ g ++ ins1 ++ rule1SpecGo n r

/-- Spec-side rule 1: fuel set to the length of the text. -/
def insertAfterEachMatch (s : List Char) : List Char := rule1SpecGo s.length s

/-- Spec-side leftmost search for rule 2's literal: on success, return
the text before the occurrence and the text after it. -/
def findL : List Char → Option (List Char × List Char)
  | [] => none
  | c :: rest =>
    match dropLit pat2 (c :: rest) with
    | some r => some ([], r)
    | none =>
      match findL rest with
      | some (p, r) => some (c :: p, r)
      | none => none

/-- Spec-side rewriter for rule 2 (fuel-indexed): each occurrence of the
literal token sequence is replaced by the expanded object expression,
exactly once per occurrence. -/
def rule2SpecGo : Nat → List Char → List Char
  | 0, s => s
  | n + 1, s =>
    match findL s with
    | none => s
    | some (p, r) => p ++ rep2 ++ rule2SpecGo n r

/-- Spec-side rule 2: fuel set to the length of the text. -/
def replaceEachOccurrence (s : List Char) : List Char := rule2SpecGo s.length s

theorem findM_some : ∀ {s p g r : List Char},
    findM s = some (p, g, r) → s = p ++ g ++ r ∧ g ≠ [] := by
  intro s
  induction s with
  | nil => intro p g r h; simp [findM] at h
  | cons c rest ih =>
    intro p g r h
    simp only [findM] at h
    cases hmr : matchRule1 (c :: rest) with
    | some pr =>
      obtain ⟨g0, r0⟩ := pr
      rw [hmr] at h
      dsimp only at h
      simp only [Option.some.injEq, Prod.mk.injEq] at h
      obtain ⟨hp, hg, hr⟩ := h
      subst hp; subst hg; subst hr
      obtain ⟨he, hne⟩ := matchRule1_consume hmr
      exact ⟨by simpa using he, hne⟩
    | none =>
      rw [hmr] at h
      dsimp only at h
      cases hf : findM rest with
      | some pr =>
        obtain ⟨p0, g0, r0⟩ := pr
        rw [hf] at h
        dsimp only at h
        simp only [Option.some.injEq, Prod.mk.injEq] at h
        obtain ⟨hp, hg, hr⟩ := h
        subst hg; subst hr
        obtain ⟨he, hne⟩ := ih hf
        subst he
        rw [← hp]
        exact ⟨by simp, hne⟩
      | none => rw [hf] at h; dsimp only at h; simp at h

theorem findM_some_length {s p g r : List Char}
    (h : findM s = some (p, g, r)) : r.length < s.length := by
  obtain ⟨he, hne⟩ := findM_some h
  subst he
  have : 0 < g.length := List.length_pos.mpr hne
  simp [List.length_append]
  omega

theorem findL_some : ∀ {s p r : List Char},
    findL s = some (p, r) → s = p ++ pat2 ++ r := by
  intro s
  induction s with
  | nil => intro p r h; simp [findL] at h
  | cons c rest ih =>
    intro p r h
    simp only [findL] at h
    cases hdl : dropLit pat2 (c :: rest) with
    | some r0 =>
      rw [hdl] at h
      dsimp only at h
      simp only [Option.some.injEq, Prod.mk.injEq] at h
      obtain ⟨hp, hr⟩ := h
      subst hp; subst hr
      simpa using dropLit_some_append hdl
    | none =>
      rw [hdl] at h
      dsimp only at h
      cases hf : findL rest with
      | some pr =>
        obtain ⟨p0, r0⟩ := pr
        rw [hf] at h
        dsimp only at h
        simp only [Option.some.injEq, Prod.mk.injEq] at h
        obtain ⟨hp, hr⟩ := h
        subst hr
        have he := ih hf
        subst he
        rw [← hp]
        simp
      | none => rw [hf] at h; dsimp only at h; simp at h

theorem findL_some_length {s p r : List Char}
    (h : findL s = some (p, r)) : r.length < s.length := by
  have he := findL_some h
  subst he
  have : 0 < pat2.length := by decide
  simp [List.length_append]
  omega

theorem rule1SpecGo_congr : ∀ (n m : Nat) (s : List Char),
    s.length ≤ n → s.length ≤ m → rule1SpecGo n s = rule1SpecGo m s := by
  intro n
  induction n with
  | zero =>
    intro m s hn _
    have hs : s = [] := by
      cases s with
      | nil => rfl
      | cons c rest => simp at hn
    subst hs
    cases m with
    | zero => rfl
    | succ m => simp [rule1SpecGo, findM]
  | succ n ih =>
    intro m s hn hm
    cases m with
    | zero =>
      have hs : s = [] := by
        cases s with
        | nil => rfl
        | cons c rest => simp at hm
      subst hs
      simp [rule1SpecGo, findM]
    | succ m =>
      simp only [rule1SpecGo]
      cases hf : findM s with
      | some pr =>
        obtain ⟨p, g, r⟩ := pr
        have hr : r.length < s.length := findM_some_length hf
        dsimp only
        rw [ih m r (by omega) (by omega)]
      | none => rfl

theorem rule2SpecGo_congr : ∀ (n m : Nat) (s : List Char),
    s.length ≤ n → s.length ≤ m → rule2SpecGo n s = rule2SpecGo m s := by
  intro n
  induction n with
  | zero =>
    intro m s hn _
    have hs : s = [] := by
      cases s with
      | nil => rfl
      | cons c rest => simp at hn
    subst hs
    cases m with
    | zero => rfl
    | succ m => simp [rule2SpecGo, findL]
  | succ n ih =>
    intro m s hn hm
    cases m with
    | zero =>
      have hs : s = [] := by
        cases s with
        | nil => rfl
        | cons c rest => simp at hm
      subst hs
      simp [rule2SpecGo, findL]
    | succ m =>
      simp only [rule2SpecGo]
      cases hf : findL s with
      | some pr =>
        obtain ⟨p, r⟩ := pr
        have hr : r.length < s.length := findL_some_length hf
        dsimp only
        rw [ih m r (by omega) (by omega)]
      | none => rfl

theorem insertAfterEachMatch_none {s : List Char} (h : findM s = none) :
    insertAfterEachMatch s = s := by
  unfold insertAfterEachMatch
  cases s with
  | nil => rfl
  | cons c rest => simp [rule1SpecGo, h]

theorem insertAfterEachMatch_some {s p g r : List Char}
    (h : findM s = some (p, g, r)) :
    insertAfterEachMatch s = p ++ g ++ ins1 ++ insertAfterEachMatch r := by
  have hr : r.length < s.length := findM_some_length h
  cases s with
  | nil => simp [findM] at h
  | cons c rest =>
    have hr2 : r.length ≤ rest.length := by
      simp only [List.length_cons] at hr
      omega
    show rule1SpecGo (rest.length + 1) (c :: rest) = _
    simp only [rule1SpecGo, h]
    rw [rule1SpecGo_congr rest.length r.length r hr2 le_rfl]
    rfl

theorem replaceEachOccurrence_none {s : List Char} (h : findL s = none) :
    replaceEachOccurrence s = s := by
  unfold replaceEachOccurrence
  cases s with
  | nil => rfl
  | cons c rest => simp [rule2SpecGo, h]

theorem replaceEachOccurrence_some {s p r : List Char}
    (h : findL s = some (p, r)) :
    replaceEachOccurrence s = p ++ rep2 ++ replaceEachOccurrence r := by
  have hr : r.length < s.length := findL_some_length h
  cases s with
  | nil => simp [findL] at h
  | cons c rest =>
    have hr2 : r.length ≤ rest.length := by
      simp only [List.length_cons] at hr
      omega
    show rule2SpecGo (rest.length + 1) (c :: rest) = _
    simp only [rule2SpecGo, h]
    rw [rule2SpecGo_congr rest.length r.length r hr2 le_rfl]
    rfl

/-! ### Refinement: the re.sub scans agree with the spec-side rewriters -/

theorem sub1_eq_spec_aux : ∀ (n : Nat) (s : List Char), s.length ≤ n →
    sub1 s = insertAfterEachMatch s := by
  intro n
  induction n with
  | zero =>
    intro s hn
    have hs : s = [] := by
      cases s with
      | nil => rfl
      | cons c rest => simp at hn
    subst hs
    rfl
  | succ n ih =>
    intro s hn
    cases s with
    | nil => rfl
    | cons c rest =>
      simp only [List.length_cons] at hn
      cases hmr : matchRule1 (c :: rest) with
      | some pr =>
        obtain ⟨g, r⟩ := pr
        have hr : r.length < rest.length + 1 := matchRule1_length hmr
        have hfind : findM (c :: rest) = some ([], g, r) := by
          simp [findM, hmr]
        rw [sub1_cons_matched hmr, insertAfterEachMatch_some hfind,
          ih r (by omega)]
        simp
      | none =>
        rw [sub1_cons_nomatch hmr, ih rest (by omega)]
        cases hf : findM rest with
        | none =>
          have hfc : findM (c :: rest) = none := by
            simp [findM, hmr, hf]
          rw [insertAfterEachMatch_none hf, insertAfterEachMatch_none hfc]
        | some pr =>
          obtain ⟨p, g, r⟩ := pr
          have hfc : findM (c :: rest) = some (c :: p, g, r) := by
            simp [findM, hmr, hf]
          rw [insertAfterEachMatch_some hf, insertAfterEachMatch_some hfc]
          simp

theorem sub2_eq_spec_aux : ∀ (n : Nat) (s : List Char), s.length ≤ n →
    sub2 s = replaceEachOccurrence s := by
  intro n
  induction n with
  | zero =>
    intro s hn
    have hs : s = [] := by
      cases s with
      | nil => rfl
      | cons c rest => simp at hn
    subst hs
    rfl
  | succ n ih =>
    intro s hn
    cases s with
    | nil => rfl
    | cons c rest =>
      simp only [List.length_cons] at hn
      cases hdl : dropLit pat2 (c :: rest) with
      | some r =>
        have hlen : (c :: rest).length = pat2.length + r.length :=
          dropLit_some_length hdl
        have hp : 0 < pat2.length := by decide
        simp only [List.length_cons] at hlen
        have hfind : findL (c :: rest) = some ([], r) := by
          simp [findL, hdl]
        rw [sub2_cons_matched hdl, replaceEachOccurrence_some hfind,
          ih r (by omega)]
        simp
      | none =>
        rw [sub2_cons_nomatch hdl, ih rest (by omega)]
        cases hf : findL rest with
        | none =>
          have hfc : findL (c :: rest) = none := by
            simp [findL, hdl, hf]
          rw [replaceEachOccurrence_none hf, replaceEachOccurrence_none hfc]
        | some pr =>
          obtain ⟨p, r⟩ := pr
          have hfc : findL (c :: rest) = some (c :: p, r) := by
            simp [findL, hdl, hf]
          rw [replaceEachOccurrence_some hf, replaceEachOccurrence_some hfc]
          simp

/-! ### Identity when nothing matches -/

theorem sub1_id_of_no_match : ∀ {s : List Char},
    hasMatch1 s = false → sub1 s = s := by
  intro s
  induction s with
  | nil => intro _; rfl
  | cons c rest ih =>
    intro h
    simp only [hasMatch1, Bool.or_eq_false_iff] at h
    obtain ⟨h1, h2⟩ := h
    cases hmr : matchRule1 (c :: rest) with
    | some pr => rw [hmr] at h1; simp at h1
    | none => rw [sub1_cons_nomatch hmr, ih h2]

theorem sub2_id_of_no_match : ∀ {s : List Char},
    hasMatch2 s = false → sub2 s = s := by
  intro s
  induction s with
  | nil => intro _; rfl
  | cons c rest ih =>
    intro h
    simp only [hasMatch2, Bool.or_eq_false_iff] at h
    obtain ⟨h1, h2⟩ := h
    cases hdl : dropLit pat2 (c :: rest) with
    | some r => rw [hdl] at h1; simp at h1
    | none => rw [sub2_cons_nomatch hdl, ih h2]

/-! ### The transformation never shortens the text -/

theorem length_le_sub1_aux : ∀ (n : Nat) (s : List Char), s.length ≤ n →
    s.length ≤ (sub1 s).length := by
  intro n
  induction n with
  | zero => intro s hn; omega
  | succ n ih =>
    intro s hn
    cases s with
    | nil => simp
    | cons c rest =>
      simp only [List.length_cons] at hn
      cases hmr : matchRule1 (c :: rest) with
      | some pr =>
        obtain ⟨g, r⟩ := pr
        have hr : r.length < rest.length + 1 := matchRule1_length hmr
        have he : (c :: rest) = g ++ r := (matchRule1_consume hmr).1
        have hlen : rest.length + 1 = g.length + r.length := by
          have := congrArg List.length he
          simpa [List.length_append] using this
        have hrec : r.length ≤ (sub1 r).length := ih r (by omega)
        rw [sub1_cons_matched hmr]
        simp only [List.length_append, List.length_cons]
        omega
      | none =>
        have hrec : rest.length ≤ (sub1 rest).length := ih rest (by omega)
        rw [sub1_cons_nomatch hmr]
        simp only [List.length_cons]
        omega

theorem length_le_sub2_aux : ∀ (n : Nat) (s : List Char), s.length ≤ n →
    s.length ≤ (sub2 s).length := by
  intro n
  induction n with
  | zero => intro s hn; omega
  | succ n ih =>
    intro s hn
    cases s with
    | nil => simp
    | cons c rest =>
      simp only [List.length_cons] at hn
      cases hdl : dropLit pat2 (c :: rest) with
      | some r =>
        have hlen : (c :: rest).length = pat2.length + r.length :=
          dropLit_some_length hdl
        have hp : 0 < pat2.length := by decide
        have hpr : pat2.length ≤ rep2.length := by decide
        simp only [List.length_cons] at hlen
        have hrec : r.length ≤ (sub2 r).length := ih r (by omega)
        rw [sub2_cons_matched hdl]
        simp only [List.length_append, List.length_cons]
        omega
      | none =>
        have hrec : rest.length ≤ (sub2 rest).length := ih rest (by omega)
        rw [sub2_cons_nomatch hdl]
        simp only [List.length_cons]
        omega

/-! ### Idempotence of the second substitution

Key facts: the replacement text of rule 2 contains no occurrence of the
pattern of rule 2 starting at any of its positions (even when followed by
arbitrary text, because a definite character mismatch happens inside the
replacement), and no non-empty suffix of the pattern is a prefix of the
replacement.  Hence a second scan can neither fire inside an inserted
replacement nor across its boundaries. -/

/-- `mism lit s` holds when comparing `lit` against `s` position by
position hits a definite mismatch before either list runs out.  Then
`lit` is not a prefix of `s ++ t` for any continuation `t`. -/
def mism : List Char → List Char → Bool
  | [], _ => false
  | _, [] => false
  | a :: as, b :: bs => if a = b then mism as bs else true

theorem mism_dropLit : ∀ (lit u t : List Char),
    mism lit u = true → dropLit lit (u ++ t) = none := by
  intro lit
  induction lit with
  | nil => intro u t h; simp [mism] at h
  | cons a as ih =>
    intro u t h
    cases u with
    | nil => simp [mism] at h
    | cons b bs =>
      by_cases hab : a = b
      · subst hab
        simp only [mism, if_pos rfl] at h
        simpa [dropLit] using ih bs t h
      · simp [dropLit, hab]

/-- Scanning cannot start a new occurrence of the pattern at any position
inside the replacement text, regardless of what follows it. -/
theorem rep2_all_mism : ∀ i, i < rep2.length → mism pat2 (rep2.drop i) = true := by
  decide

/-- No non-empty suffix of the pattern begins the replacement text, so an
occurrence cannot end across the left boundary of a replacement. -/
theorem tails_mism : ∀ q ∈ pat2.tails, q ≠ [] → mism q rep2 = true := by
  decide

theorem sub2_append_of_all_mism : ∀ (u : List Char),
    (∀ i, i < u.length → mism pat2 (u.drop i) = true) →
    ∀ t, sub2 (u ++ t) = u ++ sub2 t := by
  intro u
  induction u with
  | nil => intro _ t; simp
  | cons c u ih =>
    intro h t
    have h0 : mism pat2 (c :: u) = true := by simpa using h 0 (by simp)
    have hd : dropLit pat2 (c :: (u ++ t)) = none := by
      simpa using mism_dropLit pat2 (c :: u) t h0
    show sub2 (c :: (u ++ t)) = c :: (u ++ sub2 t)
    rw [sub2_cons_nomatch hd]
    rw [ih (fun i hi => by simpa using h (i + 1) (by simp [List.length_cons]; omega)) t]

theorem sub2_rep2_append (t : List Char) : sub2 (rep2 ++ t) = rep2 ++ sub2 t :=
  sub2_append_of_all_mism rep2 rep2_all_mism t

theorem dropLit_sub2_none_aux : ∀ (n : Nat) (s q : List Char), s.length ≤ n →
    q ≠ [] → q <:+ pat2 → dropLit q s = none → dropLit q (sub2 s) = none := by
  intro n
  induction n with
  | zero =>
    intro s q hn hq _ _
    have hs : s = [] := by
      cases s with
      | nil => rfl
      | cons c rest => simp at hn
    subst hs
    rw [sub2_nil]
    exact dropLit_nil_none hq
  | succ n ih =>
    intro s q hn hq hsuf hnone
    cases s with
    | nil => rw [sub2_nil]; exact dropLit_nil_none hq
    | cons c rest =>
      simp only [List.length_cons] at hn
      cases hdl : dropLit pat2 (c :: rest) with
      | some r =>
        rw [sub2_cons_matched hdl]
        have hmem : q ∈ pat2.tails := (List.mem_tails q pat2).mpr hsuf
        exact mism_dropLit q rep2 (sub2 r) (tails_mism q hmem hq)
      | none =>
        rw [sub2_cons_nomatch hdl]
        cases q with
        | nil => exact absurd rfl hq
        | cons q0 qt =>
          by_cases hq0 : q0 = c
          · subst hq0
            have hqt : dropLit qt rest = none := by
              simpa [dropLit] using hnone
            cases qt with
            | nil => simp [dropLit] at hqt
            | cons q1 qs =>
              have hsuf2 : (q1 :: qs) <:+ pat2 :=
                List.IsSuffix.trans (List.suffix_cons q0 (q1 :: qs)) hsuf
              have hrec := ih rest (q1 :: qs) (by omega) (by simp) hsuf2 hqt
              simpa [dropLit] using hrec
          · simp [dropLit, hq0]

theorem dropLit_sub2_none {s q : List Char} (hq : q ≠ []) (hsuf : q <:+ pat2)
    (hnone : dropLit q s = none) : dropLit q (sub2 s) = none :=
  dropLit_sub2_none_aux s.length s q le_rfl hq hsuf hnone

theorem sub2_idem_aux : ∀ (n : Nat) (s : List Char), s.length ≤ n →
    sub2 (sub2 s) = sub2 s := by
  intro n
  induction n with
  | zero =>
    intro s hn
    have hs : s = [] := by
      cases s with
      | nil => rfl
      | cons c rest => simp at hn
    subst hs
    rfl
  | succ n ih =>
    intro s hn
    cases s with
    | nil => rfl
    | cons c rest =>
      simp only [List.length_cons] at hn
      cases hdl : dropLit pat2 (c :: rest) with
      | some r =>
        have hlen : (c :: rest).length = pat2.length + r.length :=
          dropLit_some_length hdl
        have hp : 0 < pat2.length := by decide
        simp only [List.length_cons] at hlen
        rw [sub2_cons_matched hdl, sub2_rep2_append, ih r (by omega)]
      | none =>
        have hstep := sub2_cons_nomatch hdl
        rw [hstep]
        have hd2 : dropLit pat2 (c :: sub2 rest) = none := by
          have hall := @dropLit_sub2_none (c :: rest) pat2
            (by decide) (List.suffix_refl pat2) hdl
          rwa [hstep] at hall
        rw [sub2_cons_nomatch hd2, ih rest (by omega)]

/-! ### Model of the script run

The module body of src/fix_price_mapping.py: open the hard-coded path for
reading, read the whole content, apply rule 1 then rule 2, open the same
path for writing, write the result, print the confirmation line.  The
file system is a map from paths to optional contents; a `none` at the
target path models a failed read (missing file, unreadable, or not
decodable as text), in which case the exception propagates: the run ends
unsuccessfully with no write performed.  The script never consults
command-line arguments or environment variables; they are passed to the
model only so that this can be stated. -/

/-- The single hard-coded path the script reads and writes. -/
def targetPath : String := "app/api/expert-sessions/route.ts"

/-- The whole transformation on a file content given as a string. -/
def patchStr (s : String) : String := String.mk (patch s.toList)

/-- File-system events a run can perform. -/
inductive Ev where
  | read (p : String)
  | write (p : String) (content : String)
deriving DecidableEq

/-- Path an event touches. -/
def Ev.path : Ev → String
  | .read p => p
  | .write p _ => p

/-- Is the event a read? -/
def Ev.isRead : Ev → Bool
  | .read _ => true
  | .write _ _ => false

/-- Is the event a write? -/
def Ev.isWrite : Ev → Bool
  | .read _ => false
  | .write _ _ => true

/-- Outcome of a run: the file-system events in order, the resulting file
system, whether the process exited successfully, and its standard
output. -/
structure RunResult where
  events : List Ev
  finalFs : String → Option String
  exitOk : Bool
  output : String

/-- The script run, translated from the module body of
src/fix_price_mapping.py. -/
def runScript (argv : List String) (env : String → Option String)
    (fs : String → Option String) : RunResult :=
  match fs targetPath with
  | none => ⟨[Ev.read targetPath], fs, false, ""⟩
  | some content =>
    ⟨[Ev.read targetPath, Ev.write targetPath (patchStr content)],
     fun p => if p = targetPath then some (patchStr content) else fs p,
     true, "Fixed price field mapping in expert-sessions API"⟩

/-! ### Concrete inputs used by the counterexamples -/

/-- An input matching both patterns: a spreading return preceded by
whitespace, then the property-shorthand token. -/
def exBoth : List Char := "\n return \x7b ...session,\n session: newSession".toList

/-- An input whose only content is a line with the spreading return. -/
def exRet : List Char := "\nreturn \x7b ...session,".toList

/-! ### The claims -/

/-- C1: for every input text, the first substitution of the patcher
inserts the price_amount assignment (copying session.price_cents, tagged
with the explanatory comment) immediately after each occurrence of the
spreading-return shape, exactly once per matching occurrence, with the
matched text itself left unchanged: the re.sub scan agrees with the
spec-side rewriter that splits at each occurrence and inserts once. -/
theorem rule1_inserts_after_each_match :
    ∀ s : List Char, sub1 s = insertAfterEachMatch s :=
  fun s => sub1_eq_spec_aux s.length s le_rfl

/-- C2: for every input text, the second substitution of the patcher
replaces each occurrence of the token sequence of rule 2 with the
expanded object expression, exactly once per occurrence: the re.sub scan
agrees with the spec-side rewriter that splits at each occurrence and
substitutes the replacement once. -/
theorem rule2_replaces_each_occurrence :
    ∀ s : List Char, sub2 s = replaceEachOccurrence s :=
  fun s => sub2_eq_spec_aux s.length s le_rfl

/-- C3 counterexample: on a concrete input matching both patterns,
running the patcher a second time on the once-patched result is not a
no-op — the output of the second run differs from its input. -/
theorem second_run_not_noop_cex :
    hasMatch1 exBoth = true ∧ hasMatch2 exBoth = true ∧
    patch (patch exBoth) ≠ patch exBoth := by
  exact ⟨by decide, by decide, by decide⟩

/-- C3 amended: a second run of the patcher on the once-patched file is
not a no-op: rule 1's pattern still matches the once-patched text (the
matched shape is kept unchanged and the insertion follows it), so the
second run inserts the price_amount assignment line a second time; only
rule 2's substitution no longer fires.  Concretely, one run of the
patcher on the doubly-matching input yields one inserted line, and the
second run duplicates it. -/
theorem second_run_duplicates_insertion :
    patch exBoth =
      ("\n return \x7b ...session,").toList ++ ins1 ++ ("\n ").toList ++ rep2 ∧
    patch (patch exBoth) =
      ("\n return \x7b ...session,").toList ++ ins1 ++ ins1 ++ ("\n ").toList ++ rep2 := by
  exact ⟨by decide, by decide⟩

/-- C4: an input containing no occurrence of either pattern is written
back unchanged, and each non-matching substitution is the identity on its
input. -/
theorem no_match_identity {s : List Char}
    (h1 : hasMatch1 s = false) (h2 : hasMatch2 s = false) :
    sub1 s = s ∧ sub2 s = s ∧ patch s = s := by
  refine ⟨sub1_id_of_no_match h1, sub2_id_of_no_match h2, ?_⟩
  unfold patch
  rw [sub1_id_of_no_match h1, sub2_id_of_no_match h2]

/-- C4 witness at a concrete non-matching input. -/
theorem no_match_identity_witness :
    sub1 "hello world".toList = "hello world".toList ∧
    sub2 "hello world".toList = "hello world".toList ∧
    patch "hello world".toList = "hello world".toList :=
  no_match_identity (by decide) (by decide)

/-- C5 counterexample: on the input consisting of the matched line, the
patcher's output is not the matched line followed by a newline, two
spaces and the assignment text — the claimed replacement with two-space
indentation does not equal the actual output. -/
theorem two_space_indentation_cex :
    patch exRet ≠
      exRet ++ ("\n  price_amount: session.price_cents, // Map price_cents to price_amount for API consistency").toList := by
  decide

/-- C5 amended: the patcher rewrites the matched spreading-return line to
the matched text followed by a newline, eight spaces (not two), and the
assignment with its comment. -/
theorem insertion_indented_eight_spaces :
    patch exRet = exRet ++ ins1 ∧
    ins1 = ("\n        price_amount: session.price_cents, // Map price_cents to price_amount for API consistency").toList := by
  exact ⟨by decide, by decide⟩

/-- C6: when the read succeeds, the run reads the target exactly once,
writes it exactly once, and the written content is rule 2 applied to the
result of rule 1 applied to the original content. -/
theorem patcher_lifecycle (argv : List String) (env : String → Option String)
    (fs : String → Option String) (c : String) (h : fs targetPath = some c) :
    (runScript argv env fs).events =
      [Ev.read targetPath, Ev.write targetPath (String.mk (sub2 (sub1 c.toList)))] ∧
    (runScript argv env fs).finalFs targetPath = some (String.mk (sub2 (sub1 c.toList))) ∧
    ((runScript argv env fs).events.filter Ev.isRead).length = 1 ∧
    ((runScript argv env fs).events.filter Ev.isWrite).length = 1 := by
  simp [runScript, h, patchStr, patch, Ev.isRead, Ev.isWrite]

/-- C6 witness at a concrete file system holding a one-character file. -/
theorem patcher_lifecycle_witness :
    (runScript [] (fun _ => none)
        (fun p => if p = targetPath then some "x" else none)).events =
      [Ev.read targetPath, Ev.write targetPath (String.mk (sub2 (sub1 "x".toList)))] ∧
    (runScript [] (fun _ => none)
        (fun p => if p = targetPath then some "x" else none)).finalFs targetPath =
      some (String.mk (sub2 (sub1 "x".toList))) ∧
    (((runScript [] (fun _ => none)
        (fun p => if p = targetPath then some "x" else none)).events.filter Ev.isRead).length = 1) ∧
    (((runScript [] (fun _ => none)
        (fun p => if p = targetPath then some "x" else none)).events.filter Ev.isWrite).length = 1) :=
  patcher_lifecycle [] (fun _ => none)
    (fun p => if p = targetPath then some "x" else none) "x" (by simp)

/-- C7: when the read of the target fails, the run performs no write, the
file system is left unchanged, and the process terminates with a
failure — nothing is caught or retried. -/
theorem read_failure_no_write (argv : List String) (env : String → Option String)
    (fs : String → Option String) (h : fs targetPath = none) :
    (runScript argv env fs).events = [Ev.read targetPath] ∧
    (runScript argv env fs).finalFs = fs ∧
    (runScript argv env fs).exitOk = false ∧
    ((runScript argv env fs).events.filter Ev.isWrite).length = 0 := by
  simp [runScript, h, Ev.isWrite]

/-- C7 witness at the empty file system. -/
theorem read_failure_no_write_witness :
    (runScript [] (fun _ => none) (fun _ => none)).events = [Ev.read targetPath] ∧
    (runScript [] (fun _ => none) (fun _ => none)).finalFs = (fun _ => none) ∧
    (runScript [] (fun _ => none) (fun _ => none)).exitOk = false ∧
    ((runScript [] (fun _ => none) (fun _ => none)).events.filter Ev.isWrite).length = 0 :=
  read_failure_no_write [] (fun _ => none) (fun _ => none) rfl

/-- C8: the run touches only the single hard-coded relative path — every
event is on the target path, any other path is left untouched — and
neither the command-line arguments nor the environment influence the
run. -/
theorem single_hardcoded_path (argv argv2 : List String)
    (env env2 : String → Option String) (fs : String → Option String)
    (p : String) (hp : p ≠ targetPath) :
    runScript argv env fs = runScript argv2 env2 fs ∧
    (runScript argv env fs).finalFs p = fs p ∧
    (∀ e ∈ (runScript argv env fs).events, Ev.path e = targetPath) ∧
    targetPath = "app/api/expert-sessions/route.ts" := by
  refine ⟨rfl, ?_, ?_, rfl⟩
  · cases hfs : fs targetPath with
    | none => simp [runScript, hfs]
    | some c => simp [runScript, hfs, hp]
  · cases hfs : fs targetPath with
    | none => simp [runScript, hfs, Ev.path]
    | some c => simp [runScript, hfs, Ev.path]

/-- C8 witness at a concrete file system and the path "other". -/
theorem single_hardcoded_path_witness :
    runScript ["a"] (fun _ => some "e") (fun _ => some "x") =
      runScript [] (fun _ => none) (fun _ => some "x") ∧
    (runScript ["a"] (fun _ => some "e") (fun _ => some "x")).finalFs "other" =
      (fun _ => some "x") "other" ∧
    (∀ e ∈ (runScript ["a"] (fun _ => some "e") (fun _ => some "x")).events,
      Ev.path e = targetPath) ∧
    targetPath = "app/api/expert-sessions/route.ts" :=
  single_hardcoded_path ["a"] [] (fun _ => some "e") (fun _ => none)
    (fun _ => some "x") "other" (by decide)

/-- C9: the second substitution taken alone is idempotent — applying it
to its own output changes nothing — and its fixed replacement text
contains no occurrence of its pattern. -/
theorem rule2_alone_idempotent :
    (∀ s : List Char, sub2 (sub2 s) = sub2 s) ∧ hasMatch2 rep2 = false :=
  ⟨fun s => sub2_idem_aux s.length s le_rfl, by decide⟩

/-- C10: the transformation never shortens the text: each substitution,
and their composition, yields output at least as long as its input. -/
theorem patcher_never_shortens :
    ∀ s : List Char, s.length ≤ (sub1 s).length ∧ s.length ≤ (sub2 s).length ∧
      s.length ≤ (patch s).length := by
  intro s
  have h1 := length_le_sub1_aux s.length s le_rfl
  have h2 := length_le_sub2_aux s.length s le_rfl
  have h3 := length_le_sub2_aux (sub1 s).length (sub1 s) le_rfl
  refine ⟨h1, h2, ?_⟩
  unfold patch
  omega

end PricePatch
